import Mathlib

/-
Verification of the plan-execution core of the TelegramGoogleSheetAgent
repository: placeholder resolution, argument preprocessing, request
validation (agent/decision/tool_selector.py) and the plan execution engine
(agent/action/executor.py), shallowly embedded in Lean.

Python dicts are embedded as association lists in insertion order (first
occurrence wins on lookup; keys are unique in Python dicts); Python None
is `Value.null`; the environment (os.environ) and the per-tool async
handlers (external MCP calls) are explicit parameters.
-/

namespace TGSAgent

/-- JSON-like values manipulated by the agent: the payloads of step
arguments, step outputs, the blackboard and step results. -/
inductive Value where
  | str : String → Value
  | int : Int → Value
  | bool : Bool → Value
  | null : Value
  | list : List Value → Value
  | dict : List (String × Value) → Value

mutual

/-- Boolean equality on values (used to build decidable equality). -/
def Value.beq : Value → Value → Bool
  | .str a, .str b => a == b
  | .int a, .int b => a == b
  | .bool a, .bool b => a == b
  | .null, .null => true
  | .list a, .list b => Value.beqList a b
  | .dict a, .dict b => Value.beqDict a b
  | _, _ => false

/-- Boolean equality on lists of values. -/
def Value.beqList : List Value → List Value → Bool
  | [], [] => true
  | x :: xs, y :: ys => Value.beq x y && Value.beqList xs ys
  | _, _ => false

/-- Boolean equality on association lists of values. -/
def Value.beqDict : List (String × Value) → List (String × Value) → Bool
  | [], [] => true
  | (k, v) :: xs, (k', v') :: ys => k == k' && Value.beq v v' && Value.beqDict xs ys
  | _, _ => false

end

mutual

theorem Value.beq_iff : ∀ (a b : Value), Value.beq a b = true ↔ a = b
  | .str a, b => by cases b <;> simp [Value.beq]
  | .int a, b => by cases b <;> simp [Value.beq]
  | .bool a, b => by cases b <;> simp [Value.beq]
  | .null, b => by cases b <;> simp [Value.beq]
  | .list xs, b => by
    cases b <;> simp [Value.beq]
    exact Value.beqList_iff xs _
  | .dict d, b => by
    cases b <;> simp [Value.beq]
    exact Value.beqDict_iff d _

theorem Value.beqList_iff : ∀ (a b : List Value), Value.beqList a b = true ↔ a = b
  | [], b => by cases b <;> simp [Value.beqList]
  | x :: xs, [] => by simp [Value.beqList]
  | x :: xs, y :: ys => by
    simp [Value.beqList, Value.beq_iff x y, Value.beqList_iff xs ys]

theorem Value.beqDict_iff : ∀ (a b : List (String × Value)), Value.beqDict a b = true ↔ a = b
  | [], b => by cases b <;> simp [Value.beqDict]
  | x :: xs, [] => by simp [Value.beqDict]
  | (k, v) :: xs, (k', v') :: ys => by
    simp [Value.beqDict, Value.beq_iff v v', Value.beqDict_iff xs ys]
    try tauto

end

instance : DecidableEq Value := fun a b =>
  decidable_of_iff (Value.beq a b = true) (Value.beq_iff a b)

/-- A Python dict of values: association list in insertion order. -/
abbrev Dict := List (String × Value)

/-- The step-results mapping: step_id → recorded output dict. -/
abbrev StepResults := List (String × Dict)

/-- The environment (os.environ): name → string value. -/
abbrev EnvMap := List (String × String)

/-- Lookup in a Python dict modelled as an association list (`d.get(k)`). -/
def alookup {α : Type} : List (String × α) → String → Option α
  | [], _ => none
  | (k, v) :: rest, key => if k = key then some v else alookup rest key

/-- Assignment `d[k] = v` on a Python dict: overwrite in place if the key
exists, otherwise append (insertion order preserved). -/
def setKey {α : Type} : List (String × α) → String → α → List (String × α)
  | [], k, v => [(k, v)]
  | (k', v') :: rest, k, v =>
    if k' = k then (k, v) :: rest else (k', v') :: setKey rest k v

/-- Scan for the closing brace of a placeholder: given the characters after
an opening brace, return the captured characters before the first closing
brace and the characters after it, or `none` when no closing brace remains.
Models the `([^}]+)\x7d` part of the compiled pattern. -/
def scanCapture : List Char → Option (List Char × List Char)
  | [] => none
  | c :: rest =>
    if c = '\x7d' then some ([], rest)
    else (scanCapture rest).map (fun p => (c :: p.1, p.2))

theorem scanCapture_length : ∀ (l cap after : List Char),
    scanCapture l = some (cap, after) → after.length < l.length
  | [], cap, after, h => by simp [scanCapture] at h
  | c :: rest, cap, after, h => by
    by_cases hc : c = '\x7d'
    · rw [scanCapture, if_pos hc] at h
      have h' := Option.some.inj h
      rw [Prod.mk.injEq] at h'
      rw [← h'.2]
      simp
    · rw [scanCapture, if_neg hc] at h
      cases hrec : scanCapture rest with
      | none => rw [hrec] at h; simp at h
      | some p =>
        rw [hrec, Option.map_some'] at h
        have h' := Option.some.inj h
        rw [Prod.mk.injEq] at h'
        have hlt := scanCapture_length rest p.1 p.2 (by rw [hrec])
        rw [← h'.2]
        simp only [List.length_cons]
        omega

/-- The scanning loop of `re.findall` for the compiled placeholder
pattern, with a structural fuel argument: the fuel bounds the number of
scanning steps and every recursive call moves to a strictly shorter
suffix, so a fuel of the input length (as supplied by `findPlaceholders`)
is never exhausted. -/
def findPlaceholdersF : Nat → List Char → List String
  | _, [] => []
  | 0, _ :: _ => []
  | fuel + 1, c :: rest =>
    if c = '\x7b' then
      match scanCapture rest with
      | some (cap, after) =>
        if cap.isEmpty then findPlaceholdersF fuel rest
        else cap.asString :: findPlaceholdersF fuel after
      | none => []
    else findPlaceholdersF fuel rest

/-- All placeholder bodies found in a string, in order: models
`re.findall` of the compiled placeholder pattern on the character list. -/
def findPlaceholders (l : List Char) : List String :=
  findPlaceholdersF l.length l

/-- Prefix test for character lists, written out to keep the development
self-contained. -/
def matchesAt : List Char → List Char → Bool
  | [], _ => true
  | _ :: _, [] => false
  | p :: ps, c :: cs => p == c && matchesAt ps cs

/-- The scanning loop of Python `str.replace(pat, repl)` (replace every
occurrence, left to right, non-overlapping), with a structural fuel
argument bounding the number of scanning steps; a fuel of the input
length (as supplied by `replaceChars`) is never exhausted because every
recursive call moves to a strictly shorter suffix (the matched pattern is
non-empty at every call site). -/
def replaceCharsF (pat repl : List Char) : Nat → List Char → List Char
  | _, [] => []
  | 0, l => l
  | fuel + 1, c :: rest =>
    if pat ≠ [] ∧ matchesAt pat (c :: rest) then
      repl ++ replaceCharsF pat repl fuel ((c :: rest).drop pat.length)
    else c :: replaceCharsF pat repl fuel rest

/-- Python `str.replace(pat, repl)` on character lists. -/
def replaceChars (pat repl : List Char) (l : List Char) : List Char :=
  replaceCharsF pat repl l.length l

/-- String-level wrapper for `replaceChars`. -/
def replaceStr (s pat repl : String) : String :=
  (replaceChars pat.toList repl.toList s.toList).asString

/-- Python `s.split(sep)` for a single-character separator: always returns a
non-empty list of (possibly empty) parts. -/
def splitOnChar (sep : Char) : List Char → List (List Char)
  | [] => [[]]
  | c :: rest =>
    if c = sep then [] :: splitOnChar sep rest
    else
      match splitOnChar sep rest with
      | s :: ss => (c :: s) :: ss
      | [] => [[c]]

/-- The literal placeholder text for a body: an opening brace, the body,
a closing brace. -/
def litPh (ph : String) : String := "\x7b" ++ ph ++ "\x7d"

mutual

/-- Python `repr` on the embedded value domain (strings are quoted; used
for elements of containers by `str`). -/
def pyRepr : Value → String
  | .str s => "'" ++ s ++ "'"
  | .int n => toString n
  | .bool b => if b then "True" else "False"
  | .null => "None"
  | .list vs => "[" ++ pyReprList vs ++ "]"
  | .dict d => "\x7b" ++ pyReprDict d ++ "\x7d"

/-- Comma-separated `repr`s of the elements of a list. -/
def pyReprList : List Value → String
  | [] => ""
  | [v] => pyRepr v
  | v :: rest => pyRepr v ++ ", " ++ pyReprList rest

/-- Comma-separated `repr`s of the entries of a dict. -/
def pyReprDict : List (String × Value) → String
  | [] => ""
  | [(k, v)] => "'" ++ k ++ "': " ++ pyRepr v
  | (k, v) :: rest => "'" ++ k ++ "': " ++ pyRepr v ++ ", " ++ pyReprDict rest

end

/-- Python `str()` on the embedded value domain: a string is itself, any
other value prints as its `repr`. -/
def pyStr : Value → String
  | .str s => s
  | v => pyRepr v

/-- The path-traversal loop shared by the `blackboard` and step-result
branches of `_resolve_placeholder`: repeatedly apply `value.get(part)`
(a missing key yields `None` / `Value.null`); as soon as a non-dict value
is reached while path segments remain, fail (the caller then returns the
literal placeholder text). -/
def traverse : Value → List String → Option Value
  | v, [] => some v
  | .dict d, p :: rest => traverse ((alookup d p).getD .null) rest
  | _, _ :: _ => none

/-- `ToolSelector._resolve_placeholder`: resolve a single placeholder body
against the blackboard, the step results, or the environment. A body with
no dot is a direct blackboard lookup defaulting to the literal placeholder
text; a dotted body dispatches on its source token. -/
def resolvePlaceholder (ph : String) (bb : Dict) (sr : StepResults) (env : EnvMap) : Value :=
  match splitOnChar '.' ph.toList with
  | [] => .str (litPh ph)
  | [_] => (alookup bb ph).getD (.str (litPh ph))
  | src :: p0 :: prest =>
    let source := src.asString
    let path := (p0 :: prest).map List.asString
    if source = "blackboard" then
      match traverse (.dict bb) path with
      | some v => v
      | none => .str (litPh ph)
    else
      match alookup sr source with
      | some out =>
        match traverse (.dict out) path with
        | some v => v
        | none => .str (litPh ph)
      | none =>
        if source = "env" then
          ((alookup env p0.asString).map Value.str).getD (.str (litPh ph))
        else
          .str (litPh ph)

/-- The substitution loop of `_resolve_string` for the mixed / multiple
placeholder case: each placeholder occurrence is replaced by the Python
`str()` of its resolved value. -/
def substAll (ms : List String) (value : String) (bb : Dict) (sr : StepResults)
    (env : EnvMap) : String :=
  ms.foldl (fun acc m => replaceStr acc (litPh m) (pyStr (resolvePlaceholder m bb sr env))) value

/-- `ToolSelector._resolve_string`: a string with no placeholder is
returned unchanged; a string that is exactly one placeholder resolves to
the referenced value with its native type; otherwise every placeholder is
substituted as a string. -/
def resolveString (value : String) (bb : Dict) (sr : StepResults) (env : EnvMap) : Value :=
  match findPlaceholders value.toList with
  | [] => .str value
  | [m] =>
    if value = litPh m then resolvePlaceholder m bb sr env
    else .str (substAll [m] value bb sr env)
  | ms => .str (substAll ms value bb sr env)

/-- The element transform of `_resolve_arguments`' list branch: only string
elements are resolved, every other element passes through unchanged. -/
def resolveListElem (bb : Dict) (sr : StepResults) (env : EnvMap) : Value → Value
  | .str s => resolveString s bb sr env
  | v => v

mutual

/-- `ToolSelector._resolve_arguments`: apply the per-value branching of
the source's loop to every entry of the argument dict. -/
def resolveArguments (bb : Dict) (sr : StepResults) (env : EnvMap) :
    List (String × Value) → List (String × Value)
  | [] => []
  | (k, v) :: rest => (k, resolveArgValue bb sr env v) :: resolveArguments bb sr env rest

/-- The per-value branching of `_resolve_arguments`: resolve a string
value, map the list branch over `resolveListElem` (which only touches
string elements), recurse into a dict value, and pass every other value
through unchanged. -/
def resolveArgValue (bb : Dict) (sr : StepResults) (env : EnvMap) : Value → Value
  | .str s => resolveString s bb sr env
  | .list vs => .list (vs.map (resolveListElem bb sr env))
  | .dict d => .dict (resolveArguments bb sr env d)
  | v => v

end

/-- The generic previous-step placeholder tokens recognized by
`_preprocess_placeholders`. -/
def genericTokens : List String := ["prev_step_output", "step_output", "previous_output"]

/-- The decimal-digit test used for the `stepN_output` pattern. -/
def isDigitCh (c : Char) : Bool := '0' ≤ c && c ≤ '9'

/-- Test for the pattern of a numbered step-output token: the literal
`step`, one or more digits, then the literal `_output`, and nothing else. -/
def isStepNOutput (ph : String) : Bool :=
  match ph.toList with
  | 's' :: 't' :: 'e' :: 'p' :: rest =>
    !(rest.takeWhile isDigitCh).isEmpty && rest.dropWhile isDigitCh == "_output".toList
  | _ => false

/-- Python `ph.split("_")[0]`: the characters before the first underscore. -/
def stepIdOf (ph : String) : String :=
  (ph.toList.takeWhile (· != '_')).asString

/-- The shared field-priority rewrite of `_preprocess_placeholders` (the
identical if/elif chain appears once for generic tokens and once for
numbered tokens in the source): replace every occurrence of the braced
token by a braced `step_id.field` reference, choosing `rows`, then
`data_rows`, then `output`, then the first key of the output mapping; an
empty output mapping leaves the string unchanged. -/
def rewriteToken (v : String) (ph : String) (sid : String) (out : Dict) : String :=
  if (alookup out "rows").isSome then
    replaceStr v (litPh ph) (litPh (sid ++ ".rows"))
  else if (alookup out "data_rows").isSome then
    replaceStr v (litPh ph) (litPh (sid ++ ".data_rows"))
  else if (alookup out "output").isSome then
    replaceStr v (litPh ph) (litPh (sid ++ ".output"))
  else
    match out with
    | [] => v
    | (k, _) :: _ => replaceStr v (litPh ph) (litPh (sid ++ "." ++ k))

/-- The body of `_preprocess_placeholders`' inner loop for one placeholder
body `ph` found in the string `v`. A generic token selects the last
dependency (scanning `depends_on` in reverse) that has a recorded result;
`if prev_step_id:` is Python truthiness, so an empty-string step id is
treated as no selection. A numbered token selects its own step id. -/
def applyToken (v : String) (ph : String) (deps : List String) (sr : StepResults) : String :=
  if genericTokens.contains ph then
    match deps.reverse.find? (fun d => (alookup sr d).isSome) with
    | some prevId =>
      if prevId = "" then v
      else rewriteToken v ph prevId ((alookup sr prevId).getD [])
    | none => v
  else if isStepNOutput ph then
    let sid := stepIdOf ph
    match alookup sr sid with
    | some out => rewriteToken v ph sid out
    | none => v
  else v

/-- The string branch of `_preprocess_placeholders`: fold the token rewrite
over the placeholder bodies found in the original string. -/
def preprocessString (v : String) (deps : List String) (sr : StepResults) : String :=
  (findPlaceholders v.toList).foldl (fun acc ph => applyToken acc ph deps sr) v

mutual

/-- `ToolSelector._preprocess_placeholders`: rewrite generic and numbered
step-output tokens in every string of the argument tree, applying the
source loop's per-value branching to every entry. -/
def preprocessArgs (deps : List String) (sr : StepResults) :
    List (String × Value) → List (String × Value)
  | [] => []
  | (k, v) :: rest => (k, preprocessValue deps sr v) :: preprocessArgs deps sr rest

/-- The per-value branching of `_preprocess_placeholders`: rewrite tokens
in a string value, process list elements with the list branch, recurse
into a dict value, and pass every other value through unchanged. -/
def preprocessValue (deps : List String) (sr : StepResults) : Value → Value
  | .str s => .str (preprocessString s deps sr)
  | .list vs => .list (preprocessList deps sr vs)
  | .dict d => .dict (preprocessArgs deps sr d)
  | v => v

/-- The list branch of `_preprocess_placeholders`: a string element is
routed through a singleton temp dict in the source, which is the same as
applying the string branch directly; a dict element is recursed; every
other element passes through unchanged. -/
def preprocessList (deps : List String) (sr : StepResults) : List Value → List Value
  | [] => []
  | .str s :: rest => .str (preprocessString s deps sr) :: preprocessList deps sr rest
  | .dict d :: rest => .dict (preprocessArgs deps sr d) :: preprocessList deps sr rest
  | v :: rest => v :: preprocessList deps sr rest

end

/-- `ToolSelector.prepare_tool_request`: preprocess generic placeholders,
then resolve; the result is the pair of the tool name and resolved
arguments of the produced ToolRequest (whose request_id is the step id and
whose depends_on is carried through unchanged). -/
def prepareArgs (args : List (String × Value)) (deps : List String) (bb : Dict)
    (sr : StepResults) (env : EnvMap) : List (String × Value) :=
  resolveArguments bb sr env (preprocessArgs deps sr args)

/-- The required-argument table of `validate_tool_request`. -/
def required_args : List (String × List String) :=
  [("extract_webpage", ["url"]),
   ("extract_pdf", ["path"]),
   ("caption_image", ["image_url_or_path"]),
   ("google_sheets_upsert", ["spreadsheet_title", "sheet_name", "rows"]),
   ("google_drive_share", ["file_id"]),
   ("gmail_send", ["to", "subject"]),
   ("telegram_send", ["chat_id", "text"])]

/-- The per-argument check loop of `validate_tool_request`: an absent or
null required argument, or a required string argument containing both an
opening and a closing brace, fails with a message. -/
def checkArgs (args : Dict) : List String → Bool × Option String
  | [] => (true, none)
  | a :: rest =>
    match alookup args a with
    | none => (false, some ("Missing required argument: " ++ a))
    | some .null => (false, some ("Missing required argument: " ++ a))
    | some (.str s) =>
      if s.toList.contains '\x7b' && s.toList.contains '\x7d' then
        (false, some ("Unresolved placeholder in argument: " ++ a ++ " = " ++ s))
      else checkArgs args rest
    | some _ => checkArgs args rest

/-- `ToolSelector.validate_tool_request` on a request's name and resolved
arguments: a tool absent from the required-argument table is trivially
valid. -/
def validateToolRequest (name : String) (args : Dict) : Bool × Option String :=
  match alookup required_args name with
  | none => (true, none)
  | some reqs => checkArgs args reqs

/-- Step and plan status literals of the models module. -/
inductive StepStatus where
  | pending
  | in_progress
  | completed
  | failed
deriving DecidableEq

/-- A ToolResult: request id, tool name, success flag, output dict (empty
on failure, the pydantic default), optional error text. -/
structure ToolResultRec where
  request_id : String
  name : String
  success : Bool
  output : Dict
  error : Option String
deriving DecidableEq

/-- A PlanStep as the engine sees it: identity, tool, raw arguments,
dependencies, mutable status and result. -/
structure StepRec where
  step_id : String
  tool : String
  args : List (String × Value)
  depends_on : List String
  status : StepStatus
  result : Option ToolResultRec
deriving DecidableEq

/-- The tool oracle: models the per-tool async handlers called by
`execute_tool` (external MCP calls): a success output mapping, or the text
of the exception / failure. -/
abbrev Invoke := String → List (String × Value) → Except String Dict

/-- The keys of `ToolExecutor.tool_handlers`. -/
def toolHandlerNames : List String :=
  ["extract_webpage", "extract_pdf", "caption_image", "google_sheets_upsert",
   "google_drive_share", "gmail_send", "telegram_send"]

/-- `ToolExecutor.execute_tool`: an unknown tool name yields a failure
result; otherwise the handler either returns an output mapping or raises,
which is caught and recorded as a failure result. -/
def executeTool (invoke : Invoke) (name : String) (args : Dict) (reqId : String) :
    ToolResultRec :=
  if toolHandlerNames.contains name then
    match invoke name args with
    | .ok out => ⟨reqId, name, true, out, none⟩
    | .error e => ⟨reqId, name, false, [], some e⟩
  else ⟨reqId, name, false, [], some ("Unknown tool: " ++ name)⟩

/-- The static projection table of `_update_blackboard`. -/
def key_mappings : List (String × List (String × String)) :=
  [("google_sheets_upsert", [("spreadsheet_id", "spreadsheet_id"), ("sheet_url", "sheet_url")]),
   ("google_drive_share", [("link", "share_link")]),
   ("gmail_send", [("message_id", "email_message_id")]),
   ("extract_webpage", [("markdown", "extracted_content"), ("rows", "data_rows")])]

/-- `ToolExecutor._update_blackboard`: copy the mapped output fields to
their canonical blackboard keys, then always store the full output under
`step_<id>`. -/
def updateBlackboard (bb : Dict) (tool : String) (stepId : String) (output : Dict) : Dict :=
  let mappings := (alookup key_mappings tool).getD []
  let bb' := mappings.foldl
    (fun acc p =>
      match alookup output p.1 with
      | some v => setKey acc p.2 v
      | none => acc) bb
  setKey bb' ("step_" ++ stepId) (.dict output)

/-- A wave member after the preparation loop: the step (marked
in_progress) together with its resolved tool request. -/
structure PreparedCall where
  step : StepRec
  toolName : String
  callArgs : Dict
deriving DecidableEq

/-- Outcome of the preparation loop over one wave. On validation failure
the steps processed so far are in_progress, the failing step is failed
with a recorded validation error, and the following wave members are
untouched. -/
inductive PrepResult where
  | ok (prepared : List PreparedCall)
  | fail (steps : List StepRec)
deriving DecidableEq

/-- The per-wave preparation loop of `execute_plan`: mark each ready step
in_progress, resolve its arguments, validate the request; on the first
invalid request mark that step failed and stop (the engine then fails the
plan). -/
def prepareWave (bb : Dict) (sr : StepResults) (env : EnvMap) :
    List StepRec → PrepResult
  | [] => .ok []
  | step :: rest =>
    let step1 : StepRec := { step with status := .in_progress }
    let args := prepareArgs step.args step.depends_on bb sr env
    match validateToolRequest step.tool args with
    | (true, _) =>
      match prepareWave bb sr env rest with
      | .ok prepared => .ok (⟨step1, step.tool, args⟩ :: prepared)
      | .fail steps => .fail (step1 :: steps)
    | (false, err) =>
      .fail ({ step1 with
               status := .failed,
               result := some ⟨step.step_id, step.tool, false, [], err⟩ } :: rest)

/-- Outcome of awaiting one wave: on success, the settled steps plus the
updated completed-ids, step-results and blackboard; on the first failure,
the wave's steps as they stand (completed prefix, failed member, not-yet-
awaited members still in_progress) plus the blackboard as mutated so far. -/
inductive WaveResult where
  | ok (steps : List StepRec) (cids : List String) (sr : StepResults) (bb : Dict)
  | fail (steps : List StepRec) (bb : Dict)
deriving DecidableEq

/-- The await loop of `execute_plan` over one dispatched wave, in wave
order: a success marks the step completed, appends its id, records its
output and projects it into the blackboard; the first failure marks that
step failed and returns immediately, leaving the remaining wave members
unsettled. -/
def awaitWave (invoke : Invoke) : List PreparedCall → List String → StepResults → Dict →
    WaveResult
  | [], cids, sr, bb => .ok [] cids sr bb
  | pc :: rest, cids, sr, bb =>
    let r := executeTool invoke pc.toolName pc.callArgs pc.step.step_id
    if r.success then
      let step' : StepRec := { pc.step with status := .completed, result := some r }
      let cids' := cids ++ [pc.step.step_id]
      let sr' := setKey sr pc.step.step_id r.output
      let bb' := updateBlackboard bb pc.step.tool pc.step.step_id r.output
      match awaitWave invoke rest cids' sr' bb' with
      | .ok steps c s b => .ok (step' :: steps) c s b
      | .fail steps b => .fail (step' :: steps) b
    else
      .fail ({ pc.step with status := .failed, result := some r } :: rest.map (·.step)) bb

/-- What `execute_plan` returns, together with the final state of every
step (settled steps first, then the never-dispatched remainder) and the
final plan status. -/
structure ExecOutcome where
  success : Bool
  bb : Dict
  steps : List StepRec
  planStatus : StepStatus
deriving DecidableEq

/-- Readiness: every dependency id is among the completed step ids. -/
def ready (cids : List String) (s : StepRec) : Bool :=
  s.depends_on.all (cids.contains ·)

/-- The `while pending_steps:` loop of `ToolExecutor.execute_plan`. An
empty ready set with work remaining fails the plan immediately; otherwise
the ready wave is prepared, validated, dispatched and awaited, and the
loop continues on the remaining steps. The structural fuel argument
bounds the number of loop iterations; `executePlan` supplies the number
of steps, which is never exhausted because each iteration settles at
least one pending step (the zero-fuel branch coincides with the
empty-ready-set exit and is unreachable from `executePlan`). -/
def execLoop (invoke : Invoke) (env : EnvMap) :
    Nat → List StepRec → List StepRec → List String → StepResults → Dict → ExecOutcome
  | _, [], done, _, _, bb => ⟨true, bb, done, .completed⟩
  | 0, pending, done, _, _, bb => ⟨false, bb, done ++ pending, .failed⟩
  | fuel + 1, pending, done, cids, sr, bb =>
    match pending.filter (ready cids) with
    | [] => ⟨false, bb, done ++ pending, .failed⟩
    | e :: es =>
      let restPending := pending.filter (fun s => ! ready cids s)
      match prepareWave bb sr env (e :: es) with
      | .fail steps => ⟨false, bb, done ++ steps ++ restPending, .failed⟩
      | .ok prepared =>
        match awaitWave invoke prepared cids sr bb with
        | .fail steps bb' => ⟨false, bb', done ++ steps ++ restPending, .failed⟩
        | .ok steps cids' sr' bb' =>
          execLoop invoke env fuel restPending (done ++ steps) cids' sr' bb'

/-- `ToolExecutor.execute_plan` on a plan's steps: fresh completed-ids and
step-results, then the wave loop. -/
def executePlan (invoke : Invoke) (env : EnvMap) (steps : List StepRec) (bb : Dict) :
    ExecOutcome :=
  execLoop invoke env steps.length steps [] [] [] bb

/-- Spec-side characterization (from the validation sentence of the spec):
a required argument is bad when it is absent, null, or a string containing
both an opening and a closing brace. -/
def badArg (args : Dict) (a : String) : Bool :=
  match alookup args a with
  | none => true
  | some .null => true
  | some (.str s) => s.toList.contains '\x7b' && s.toList.contains '\x7d'
  | some _ => false

mutual

/-- Spec-side predicate: no string anywhere in the value matches the
placeholder pattern. -/
def phFree : Value → Bool
  | .str s => (findPlaceholders s.toList).isEmpty
  | .int _ => true
  | .bool _ => true
  | .null => true
  | .list vs => phFreeList vs
  | .dict d => phFreeDict d

/-- Lifting of `phFree` to lists of values. -/
def phFreeList : List Value → Bool
  | [] => true
  | v :: rest => phFree v && phFreeList rest

/-- Lifting of `phFree` to argument trees. -/
def phFreeDict : List (String × Value) → Bool
  | [] => true
  | (_, v) :: rest => phFree v && phFreeDict rest

end

/-- Spec-side shape of an aborted wave: a (possibly empty) prefix of
completed steps with recorded results, then one failed step with a
recorded result, then only in_progress steps with no recorded result. -/
def waveAbortShape : List StepRec → Bool
  | [] => false
  | s :: rest =>
    (s.status == .failed && s.result.isSome &&
      rest.all (fun t => t.status == .in_progress && t.result.isNone))
    || (s.status == .completed && s.result.isSome && waveAbortShape rest)

/-- Concrete tool oracle for the wave-abort counterexamples: every handler
call reports success with an empty output. -/
def c2Invoke : Invoke := fun _ _ => .ok []

/-- Concrete plan: two independent steps naming a tool absent from the
handler table, so the first dispatched call fails. -/
def c2Steps : List StepRec :=
  [⟨"s1", "mystery_tool", [], [], .pending, none⟩,
   ⟨"s2", "mystery_tool", [], [], .pending, none⟩]

/-- Concrete tool oracle for the success witness. -/
def c2OkInvoke : Invoke := fun _ _ => .ok [("ok", Value.bool true)]

/-- Concrete one-step plan that validates and succeeds. -/
def c2OkSteps : List StepRec :=
  [⟨"s1", "telegram_send", [("chat_id", Value.int 1), ("text", Value.str "hi")],
    [], .pending, none⟩]

/-- Concrete tool oracle whose handlers always raise. -/
def c3Invoke : Invoke := fun _ _ => .error "network down"

/-- Valid telegram_send arguments used by the wave counterexample. -/
def c3Args : Dict := [("chat_id", Value.int 1), ("text", Value.str "x")]

/-- Concrete plan: two independent valid telegram_send steps whose handler
raises, so the first wave member fails mid-wave. -/
def c3Steps : List StepRec :=
  [⟨"a", "telegram_send", c3Args, [], .pending, none⟩,
   ⟨"b", "telegram_send", c3Args, [], .pending, none⟩]

/-- The same two steps as a dispatched wave (both in_progress, requests
prepared). -/
def c3Prepared : List PreparedCall :=
  [⟨⟨"a", "telegram_send", c3Args, [], .in_progress, none⟩, "telegram_send", c3Args⟩,
   ⟨⟨"b", "telegram_send", c3Args, [], .in_progress, none⟩, "telegram_send", c3Args⟩]

/-- The wave state produced by awaiting `c3Prepared` under `c3Invoke`. -/
def c3FailSteps : List StepRec :=
  [⟨"a", "telegram_send", c3Args, [], .failed,
    some ⟨"a", "telegram_send", false, [], some "network down"⟩⟩,
   ⟨"b", "telegram_send", c3Args, [], .in_progress, none⟩]

/-- Blackboard for the nested-argument counterexample. -/
def c4bb : Dict := [("x", Value.str "v")]

/-- Argument tree with a resolvable placeholder inside a dict nested in a
list. -/
def c4args : Dict :=
  [("k", Value.list [Value.dict [("inner", Value.str "\x7bblackboard.x\x7d")]])]

/-- Concrete tool oracle for the unsatisfiable-graph witness. -/
def c7Invoke : Invoke := fun _ _ => .ok []

/-- Concrete plan with a two-step dependency cycle. -/
def c7Steps : List StepRec :=
  [⟨"s1", "t1", [], ["s2"], .pending, none⟩,
   ⟨"s2", "t2", [], ["s1"], .pending, none⟩]

/-- Placeholder-free argument tree for the idempotence witness. -/
def c9args : Dict :=
  [("a", Value.str "hello"),
   ("b", Value.list [Value.int 3, Value.str "x"]),
   ("c", Value.dict [("d", Value.str "y")])]

theorem asString_toList (s : String) : s.toList.asString = s := rfl

theorem splitOnChar_no_sep (sep : Char) : ∀ (l : List Char), sep ∉ l →
    splitOnChar sep l = [l] := by
  intro l
  induction l with
  | nil => intro _; rfl
  | cons c rest ih =>
    intro h
    have hc : ¬(c = sep) := by
      intro he
      exact h (by rw [he]; exact List.mem_cons_self _ _)
    have hr : sep ∉ rest := fun hm => h (List.mem_cons_of_mem c hm)
    rw [splitOnChar, if_neg hc, ih hr]

theorem traverse_append : ∀ (a b : List String) (root : Value),
    traverse root (a ++ b) =
      match traverse root a with
      | some v => traverse v b
      | none => none := by
  intro a
  induction a with
  | nil => intro b root; cases root <;> rfl
  | cons p ps ih =>
    intro b root
    cases root with
    | dict d =>
      have hstep : traverse (Value.dict d) ((p :: ps) ++ b) =
          traverse ((alookup d p).getD .null) (ps ++ b) := rfl
      rw [hstep, ih]
      rfl
    | str s => rfl
    | int n => rfl
    | bool x => rfl
    | null => rfl
    | list vs => rfl

theorem scanCapture_no_rb : ∀ (l r : List Char), (∀ c ∈ l, c ≠ '\x7d') →
    scanCapture (l ++ '\x7d' :: r) = some (l, r) := by
  intro l
  induction l with
  | nil => intro r _; rw [List.nil_append, scanCapture, if_pos rfl]
  | cons c cs ih =>
    intro r h
    have hc : ¬(c = '\x7d') := h c (List.mem_cons_self c cs)
    rw [List.cons_append, scanCapture, if_neg hc,
      ih r (fun x hx => h x (List.mem_cons_of_mem c hx))]
    rfl

theorem findPlaceholders_lit (m : String) (hne : m.toList ≠ [])
    (hrb : m.toList.contains '\x7d' = false) :
    findPlaceholders (litPh m).toList = [m] := by
  have hnotin : '\x7d' ∉ m.toList := by simpa using hrb
  have hlist : (litPh m).toList = '\x7b' :: (m.toList ++ '\x7d' :: []) := by
    simp [litPh]
  have hscan : scanCapture (m.toList ++ '\x7d' :: []) = some (m.toList, []) :=
    scanCapture_no_rb _ _ (fun c hc hce => hnotin (hce ▸ hc))
  have hie : m.toList.isEmpty = false := by
    cases hm : m.toList with
    | nil => exact absurd hm hne
    | cons a b => rfl
  simp only [findPlaceholders]
  rw [hlist]
  have hlen : ('\x7b' :: (m.toList ++ '\x7d' :: [])).length = m.toList.length + 1 + 1 := by
    simp
  rw [hlen]
  simp only [findPlaceholdersF]
  rw [hscan]
  have hne' : ¬(m.data = []) := hne
  simp [hie, findPlaceholdersF, hne']
  rfl

/-- C10: a placeholder body containing no dot is treated by
`_resolve_placeholder` as a direct blackboard key lookup — the blackboard
entry under that exact key when present, otherwise the literal placeholder
text — regardless of the step results or the environment; the source
dispatch applies only to dotted bodies. -/
theorem c10_bare_token_is_blackboard_lookup (ph : String) (bb : Dict)
    (sr : StepResults) (env : EnvMap) (hnd : '.' ∉ ph.toList) :
    resolvePlaceholder ph bb sr env = (alookup bb ph).getD (.str (litPh ph)) := by
  have hsplit : splitOnChar '.' ph.data = [ph.data] :=
    splitOnChar_no_sep '.' ph.toList hnd
  simp [resolvePlaceholder, hsplit]

/-- Witness for C10 at a concrete input: the bare token resolves from the
blackboard even though the step results also know the same key. -/
theorem c10_witness :
    resolvePlaceholder "token" [("token", Value.int 5)]
      [("token", [("rows", Value.null)])] [] = Value.int 5 := by
  rw [c10_bare_token_is_blackboard_lookup "token" [("token", Value.int 5)]
    [("token", [("rows", Value.null)])] [] (by decide)]
  decide

/-- Counterexample for C1 as stated: the path `blackboard.x` with `x`
absent from the blackboard is a failing traversal step (missing key), yet
`_resolve_placeholder` returns Python None, not the literal placeholder
text. -/
theorem c1_counterexample :
    resolvePlaceholder "blackboard.x" [] [] [] = Value.null ∧
    resolvePlaceholder "blackboard.x" [] [] [] ≠ Value.str (litPh "blackboard.x") := by
  constructor
  · rfl
  · decide

/-- C1 (amended): an unknown source token yields the literal placeholder
text; for both traversal roots — the blackboard and a step result — a
traversal that reaches a non-mapping value while path segments remain
(which covers a key missing at any non-final position, since the failed
lookup yields null) yields the literal placeholder text; but a key
missing at the final position yields null rather than the literal text.
The embedding is a total function, so resolution never raises. -/
theorem c1_soft_fail_amended :
    (∀ (ph : String) (bb : Dict) (sr : StepResults) (env : EnvMap) (s p : List Char)
       (ps : List (List Char)),
       splitOnChar '.' ph.toList = s :: p :: ps →
       s.asString ≠ "blackboard" → s.asString ≠ "env" → alookup sr s.asString = none →
       resolvePlaceholder ph bb sr env = .str (litPh ph))
    ∧
    (∀ (ph : String) (bb : Dict) (sr : StepResults) (env : EnvMap) (s p : List Char)
       (ps : List (List Char)) (q1 q2 : List String) (v : Value),
       splitOnChar '.' ph.toList = s :: p :: ps →
       s.asString = "blackboard" →
       (p :: ps).map List.asString = q1 ++ q2 → q2 ≠ [] →
       traverse (.dict bb) q1 = some v → (∀ d, v ≠ .dict d) →
       resolvePlaceholder ph bb sr env = .str (litPh ph))
    ∧
    (∀ (ph : String) (bb : Dict) (sr : StepResults) (env : EnvMap) (s p : List Char)
       (ps : List (List Char)) (q1 : List String) (k : String) (d : Dict),
       splitOnChar '.' ph.toList = s :: p :: ps →
       s.asString = "blackboard" →
       (p :: ps).map List.asString = q1 ++ [k] →
       traverse (.dict bb) q1 = some (.dict d) → alookup d k = none →
       resolvePlaceholder ph bb sr env = .null)
    ∧
    (∀ (ph : String) (bb : Dict) (sr : StepResults) (env : EnvMap) (s p : List Char)
       (ps : List (List Char)) (out : Dict) (q1 q2 : List String) (v : Value),
       splitOnChar '.' ph.toList = s :: p :: ps →
       s.asString ≠ "blackboard" → alookup sr s.asString = some out →
       (p :: ps).map List.asString = q1 ++ q2 → q2 ≠ [] →
       traverse (.dict out) q1 = some v → (∀ d, v ≠ .dict d) →
       resolvePlaceholder ph bb sr env = .str (litPh ph))
    ∧
    (∀ (ph : String) (bb : Dict) (sr : StepResults) (env : EnvMap) (s p : List Char)
       (ps : List (List Char)) (out : Dict) (q1 : List String) (k : String) (d : Dict),
       splitOnChar '.' ph.toList = s :: p :: ps →
       s.asString ≠ "blackboard" → alookup sr s.asString = some out →
       (p :: ps).map List.asString = q1 ++ [k] →
       traverse (.dict out) q1 = some (.dict d) → alookup d k = none →
       resolvePlaceholder ph bb sr env = .null) := by
  refine ⟨?_, ?_, ?_, ?_, ?_⟩
  · intro ph bb sr env s p ps hsplit hnb hne hsr
    have hsplit2 : splitOnChar '.' ph.data = s :: p :: ps := hsplit
    simp [resolvePlaceholder, hsplit2, hnb, hne, hsr]
  · intro ph bb sr env s p ps q1 q2 v hsplit hb hq hq2 htr hv
    simp only [resolvePlaceholder]
    rw [hsplit]
    simp only [hb, if_pos]
    rw [hq, traverse_append, htr]
    cases q2 with
    | nil => exact absurd rfl hq2
    | cons c t =>
      cases v with
      | dict dd => exact absurd rfl (hv dd)
      | str s' => rfl
      | int n => rfl
      | bool x => rfl
      | null => rfl
      | list vs => rfl
  · intro ph bb sr env s p ps q1 k d hsplit hb hq htr hlook
    simp only [resolvePlaceholder]
    rw [hsplit]
    simp only [hb, if_pos]
    rw [hq, traverse_append, htr]
    simp [traverse, hlook]
  · intro ph bb sr env s p ps out q1 q2 v hsplit hnb hout hq hq2 htr hv
    simp only [resolvePlaceholder]
    rw [hsplit]
    simp only [if_neg hnb, hout]
    rw [hq, traverse_append, htr]
    cases q2 with
    | nil => exact absurd rfl hq2
    | cons c t =>
      cases v with
      | dict dd => exact absurd rfl (hv dd)
      | str s' => rfl
      | int n => rfl
      | bool x => rfl
      | null => rfl
      | list vs => rfl
  · intro ph bb sr env s p ps out q1 k d hsplit hnb hout hq htr hlook
    simp only [resolvePlaceholder]
    rw [hsplit]
    simp only [if_neg hnb, hout]
    rw [hq, traverse_append, htr]
    simp [traverse, hlook]

/-- Witness for the amended C1: an unknown source and a mid-path type
failure (under both roots) produce the literal placeholder text, and a
final missing key under a step-result root produces null. -/
theorem c1_soft_fail_witness :
    resolvePlaceholder "foo.bar" [] [] [] = Value.str (litPh "foo.bar") ∧
    resolvePlaceholder "blackboard.x.y" [("x", Value.int 3)] [] [] =
      Value.str (litPh "blackboard.x.y") ∧
    resolvePlaceholder "step1.x.y" [] [("step1", [("x", Value.int 3)])] [] =
      Value.str (litPh "step1.x.y") ∧
    resolvePlaceholder "step1.missing" [] [("step1", [])] [] = Value.null := by
  refine ⟨?_, ?_, ?_, ?_⟩
  · exact c1_soft_fail_amended.1 "foo.bar" [] [] [] "foo".toList "bar".toList []
      (by decide) (by decide) (by decide) rfl
  · exact c1_soft_fail_amended.2.1 "blackboard.x.y" [("x", Value.int 3)] [] []
      "blackboard".toList "x".toList ["y".toList] ["x"] ["y"] (Value.int 3)
      (by decide) (by decide) (by decide) (by decide) (by decide)
      (fun d => by simp)
  · exact c1_soft_fail_amended.2.2.2.1 "step1.x.y" [] [("step1", [("x", Value.int 3)])] []
      "step1".toList "x".toList ["y".toList] [("x", Value.int 3)] ["x"] ["y"] (Value.int 3)
      (by decide) (by decide) (by decide) (by decide) (by decide) (by decide)
      (fun d => by simp)
  · exact c1_soft_fail_amended.2.2.2.2 "step1.missing" [] [("step1", [])] []
      "step1".toList "missing".toList [] [] [] "missing" []
      (by decide) (by decide) (by decide) (by decide) (by decide) rfl

/-- C5: a string argument that is exactly one placeholder resolves to the
referenced value with its native type; a string with surrounding text or
several placeholders resolves to a string, each placeholder substituted as
its string representation; in particular a sole `step1.rows` reference
returns the recorded rows value natively. -/
theorem c5_native_vs_string_interpolation :
    (∀ (m : String) (bb : Dict) (sr : StepResults) (env : EnvMap),
       m.toList ≠ [] → m.toList.contains '\x7d' = false →
       resolveString (litPh m) bb sr env = resolvePlaceholder m bb sr env)
    ∧
    (∀ (v : String) (bb : Dict) (sr : StepResults) (env : EnvMap) (ms : List String),
       findPlaceholders v.toList = ms → ms ≠ [] → (∀ m, ms = [m] → v ≠ litPh m) →
       resolveString v bb sr env = .str (substAll ms v bb sr env))
    ∧
    (∀ (rows : Value) (bb : Dict) (env : EnvMap),
       resolveString (litPh "step1.rows") bb [("step1", [("rows", rows)])] env = rows) := by
  refine ⟨?_, ?_, ?_⟩
  · intro m bb sr env hne hrb
    have hfp : findPlaceholders (litPh m).data = [m] := findPlaceholders_lit m hne hrb
    simp [resolveString, hfp]
  · intro v bb sr env ms hfp hne hnot
    cases ms with
    | nil => exact absurd rfl hne
    | cons m rest =>
      cases rest with
      | nil =>
        have hv : ¬(v = litPh m) := hnot m rfl
        have hfp2 : findPlaceholders v.data = [m] := hfp
        simp [resolveString, hfp2, hv]
      | cons m2 r2 =>
        have hfp2 : findPlaceholders v.data = m :: m2 :: r2 := hfp
        simp [resolveString, hfp2]
  · intro rows bb env
    cases rows <;> rfl

/-- Witness for C5: the round-trip returns the native list of lists, and a
single placeholder string resolves to the resolver's value. -/
theorem c5_witness :
    resolveString (litPh "step1.rows") []
      [("step1", [("rows", Value.list [Value.list [Value.str "a", Value.str "1"]])])] [] =
      Value.list [Value.list [Value.str "a", Value.str "1"]] ∧
    resolveString (litPh "a.b") [] [] [] = resolvePlaceholder "a.b" [] [] [] := by
  constructor
  · exact c5_native_vs_string_interpolation.2.2
      (Value.list [Value.list [Value.str "a", Value.str "1"]]) [] []
  · exact c5_native_vs_string_interpolation.1 "a.b" [] [] [] (by decide) (by decide)

/-- Counterexample for C4 as stated: a resolvable placeholder inside a
mapping nested inside a sequence is not resolved — the whole tree comes
back unchanged even though the same string resolves to a value when fed
to the string resolver directly. -/
theorem c4_counterexample :
    resolveArguments c4bb [] [] c4args = c4args ∧
    resolveString "\x7bblackboard.x\x7d" c4bb [] [] = Value.str "v" := by
  constructor
  · decide
  · decide

/-- C4 (amended): resolution resolves placeholders in top-level string
values, in string elements directly inside sequences, and recursively
inside nested mappings; but a mapping or a sequence nested inside a
sequence passes through unchanged — strings inside it keep their
placeholders — and every non-string leaf passes through unchanged. -/
theorem c4_amended_resolution_depth :
    (∀ (bb : Dict) (sr : StepResults) (env : EnvMap) (k inner : String) (s : String)
       (rest : List (String × Value)),
       resolveArguments bb sr env ((k, .list [.dict [(inner, .str s)]]) :: rest) =
         (k, .list [.dict [(inner, .str s)]]) :: resolveArguments bb sr env rest)
    ∧ (∀ (bb : Dict) (sr : StepResults) (env : EnvMap) (s : String),
       resolveArgValue bb sr env (.str s) = resolveString s bb sr env)
    ∧ (∀ (bb : Dict) (sr : StepResults) (env : EnvMap) (vs : List Value),
       resolveArgValue bb sr env (.list vs) = .list (vs.map (resolveListElem bb sr env)))
    ∧ (∀ (bb : Dict) (sr : StepResults) (env : EnvMap) (s : String),
       resolveListElem bb sr env (.str s) = resolveString s bb sr env)
    ∧ (∀ (bb : Dict) (sr : StepResults) (env : EnvMap) (d : List (String × Value)),
       resolveListElem bb sr env (.dict d) = .dict d)
    ∧ (∀ (bb : Dict) (sr : StepResults) (env : EnvMap) (vs : List Value),
       resolveListElem bb sr env (.list vs) = .list vs)
    ∧ (∀ (bb : Dict) (sr : StepResults) (env : EnvMap) (v : Value),
       (∀ s, v ≠ .str s) → resolveListElem bb sr env v = v)
    ∧ (∀ (bb : Dict) (sr : StepResults) (env : EnvMap) (d : List (String × Value)),
       resolveArgValue bb sr env (.dict d) = .dict (resolveArguments bb sr env d)) := by
  refine ⟨fun _ _ _ _ _ _ _ => rfl, fun _ _ _ _ => rfl, fun _ _ _ _ => rfl,
    fun _ _ _ _ => rfl, fun _ _ _ _ => rfl, fun _ _ _ _ => rfl, ?_, fun _ _ _ _ => rfl⟩
  intro bb sr env v hv
  cases v with
  | str s => exact absurd rfl (hv s)
  | int n => rfl
  | bool b => rfl
  | null => rfl
  | list vs => rfl
  | dict d => rfl

/-- Witness for the amended C4: non-string leaves pass through. -/
theorem c4_amended_witness :
    resolveListElem [] [] [] (Value.int 7) = Value.int 7 :=
  c4_amended_resolution_depth.2.2.2.2.2.2.1 [] [] [] (Value.int 7) (fun s h => by cases h)

/-- A string with no placeholder match is returned unchanged by the
string resolver. -/
theorem resolveString_of_no_ph (v : String) (bb : Dict) (sr : StepResults) (env : EnvMap)
    (h : findPlaceholders v.toList = []) : resolveString v bb sr env = .str v := by
  have h' : findPlaceholders v.data = [] := h
  simp [resolveString, h']

/-- A placeholder-free value passes through the list-element resolver
unchanged. -/
theorem resolveListElem_of_phFree (bb : Dict) (sr : StepResults) (env : EnvMap) :
    ∀ (v : Value), phFree v = true → resolveListElem bb sr env v = v := by
  intro v hv
  cases v with
  | str s =>
    simp [phFree, List.isEmpty_iff] at hv
    exact resolveString_of_no_ph s bb sr env hv
  | int n => rfl
  | bool b => rfl
  | null => rfl
  | list vs => rfl
  | dict d => rfl

/-- Mapping the list-element resolver over a placeholder-free list is the
identity. -/
theorem map_resolveListElem_id (bb : Dict) (sr : StepResults) (env : EnvMap) :
    ∀ (vs : List Value), phFreeList vs = true →
      vs.map (resolveListElem bb sr env) = vs := by
  intro vs
  induction vs with
  | nil => intro _; rfl
  | cons v rest ih =>
    intro h
    simp [phFreeList] at h
    simp [resolveListElem_of_phFree bb sr env v h.1, ih h.2]

mutual

theorem resolveArguments_id_of_phFree (bb : Dict) (sr : StepResults) (env : EnvMap) :
    ∀ (args : List (String × Value)), phFreeDict args = true →
      resolveArguments bb sr env args = args
  | [], _ => rfl
  | (k, v) :: rest, h => by
    simp only [phFreeDict, Bool.and_eq_true] at h
    rw [resolveArguments, resolveArgValue_id_of_phFree bb sr env v h.1,
      resolveArguments_id_of_phFree bb sr env rest h.2]

theorem resolveArgValue_id_of_phFree (bb : Dict) (sr : StepResults) (env : EnvMap) :
    ∀ (v : Value), phFree v = true → resolveArgValue bb sr env v = v
  | .str s, h => by
    simp only [phFree] at h
    rw [List.isEmpty_iff] at h
    exact resolveString_of_no_ph s bb sr env h
  | .list vs, h => by
    simp only [phFree] at h
    rw [resolveArgValue, map_resolveListElem_id bb sr env vs h]
  | .dict d, h => by
    simp only [phFree] at h
    rw [resolveArgValue, resolveArguments_id_of_phFree bb sr env d h]
  | .int n, _ => rfl
  | .bool b, _ => rfl
  | .null, _ => rfl

end

/-- C9: argument resolution is the identity on an argument tree none of
whose strings contains a placeholder pattern, hence idempotent on fully
resolved inputs. -/
theorem c9_resolution_identity_on_resolved (bb : Dict) (sr : StepResults) (env : EnvMap)
    (args : Dict) (h : phFreeDict args = true) :
    resolveArguments bb sr env args = args :=
  resolveArguments_id_of_phFree bb sr env args h

/-- Witness for C9 on a concrete placeholder-free tree with a non-trivial
blackboard and step results. -/
theorem c9_witness :
    resolveArguments [("z", Value.int 9)] [("s", [("rows", Value.null)])] [] c9args =
      c9args :=
  c9_resolution_identity_on_resolved [("z", Value.int 9)] [("s", [("rows", Value.null)])]
    [] c9args (by decide)

/-- A bad required argument (absent, null, or braced string) makes the
check loop fail with a message. -/
theorem checkArgs_head_bad (args : Dict) (a : String) (rest : List String)
    (h : badArg args a = true) :
    (checkArgs args (a :: rest)).1 = false ∧ (checkArgs args (a :: rest)).2.isSome = true := by
  cases hl : alookup args a with
  | none => simp [checkArgs, hl]
  | some v =>
    cases v with
    | null => simp [checkArgs, hl]
    | str s =>
      simp only [badArg, hl] at h
      simp only [checkArgs, hl]
      rw [if_pos h]
      exact ⟨rfl, rfl⟩
    | int n => simp only [badArg, hl] at h; cases h
    | bool b => simp only [badArg, hl] at h; cases h
    | list vs => simp only [badArg, hl] at h; cases h
    | dict d => simp only [badArg, hl] at h; cases h

/-- A good required argument passes the check loop on to the rest. -/
theorem checkArgs_head_ok (args : Dict) (a : String) (rest : List String)
    (h : badArg args a = false) :
    checkArgs args (a :: rest) = checkArgs args rest := by
  cases hl : alookup args a with
  | none => simp only [badArg, hl] at h; cases h
  | some v =>
    cases v with
    | null => simp only [badArg, hl] at h; cases h
    | str s =>
      simp only [badArg, hl] at h
      simp only [checkArgs, hl]
      have hcond : ¬((s.toList.contains '\x7b' && s.toList.contains '\x7d') = true) := by
        rw [h]; simp
      rw [if_neg hcond]
    | int n => simp [checkArgs, hl]
    | bool b => simp [checkArgs, hl]
    | list vs => simp [checkArgs, hl]
    | dict d => simp [checkArgs, hl]

theorem checkArgs_false_iff : ∀ (reqs : List String) (args : Dict),
    ((checkArgs args reqs).1 = false ↔ ∃ a ∈ reqs, badArg args a = true) := by
  intro reqs
  induction reqs with
  | nil => intro args; simp [checkArgs]
  | cons a rest ih =>
    intro args
    cases hb : badArg args a with
    | true =>
      constructor
      · intro _; exact ⟨a, List.mem_cons_self a rest, hb⟩
      · intro _; exact (checkArgs_head_bad args a rest hb).1
    | false =>
      rw [checkArgs_head_ok args a rest hb, ih args]
      constructor
      · rintro ⟨x, hx, hbx⟩
        exact ⟨x, List.mem_cons_of_mem a hx, hbx⟩
      · rintro ⟨x, hx, hbx⟩
        cases List.mem_cons.mp hx with
        | inl he => rw [he] at hbx; rw [hbx] at hb; cases hb
        | inr hm => exact ⟨x, hm, hbx⟩

theorem checkArgs_false_msg : ∀ (reqs : List String) (args : Dict),
    (checkArgs args reqs).1 = false → (checkArgs args reqs).2.isSome = true := by
  intro reqs
  induction reqs with
  | nil => intro args h; simp [checkArgs] at h
  | cons a rest ih =>
    intro args h
    cases hb : badArg args a with
    | true => exact (checkArgs_head_bad args a rest hb).2
    | false =>
      rw [checkArgs_head_ok args a rest hb] at h ⊢
      exact ih args h

/-- C6: for a tool in the required-argument table, validation reports
invalid exactly when some required argument is absent, null, or a string
containing both braces; an invalid report always carries an error
message; a tool absent from the table is trivially valid. -/
theorem c6_validate_required_args :
    (∀ (name : String) (args : Dict) (reqs : List String),
       alookup required_args name = some reqs →
       ((validateToolRequest name args).1 = false ↔ ∃ a ∈ reqs, badArg args a = true))
    ∧ (∀ (name : String) (args : Dict),
       (validateToolRequest name args).1 = false →
       (validateToolRequest name args).2.isSome = true)
    ∧ (∀ (name : String) (args : Dict),
       alookup required_args name = none → validateToolRequest name args = (true, none)) := by
  refine ⟨?_, ?_, ?_⟩
  · intro name args reqs h
    simp only [validateToolRequest, h]
    exact checkArgs_false_iff reqs args
  · intro name args h
    cases hl : alookup required_args name with
    | none => simp [validateToolRequest, hl] at h
    | some reqs =>
      simp only [validateToolRequest, hl] at h ⊢
      exact checkArgs_false_msg reqs args h
  · intro name args h
    simp [validateToolRequest, h]

/-- Witness for C6: a missing required argument is rejected, an unknown
tool is accepted. -/
theorem c6_witness :
    (validateToolRequest "gmail_send" [("to", Value.str "x@y.z")]).1 = false ∧
    validateToolRequest "unknown_tool" [] = (true, none) := by
  constructor
  · exact (c6_validate_required_args.1 "gmail_send" [("to", Value.str "x@y.z")]
      ["to", "subject"] (by decide)).mpr ⟨"subject", by decide, by decide⟩
  · exact c6_validate_required_args.2.2 "unknown_tool" [] (by decide)

/-- An execution-loop state with work remaining and an empty ready set
fails the plan immediately, leaving the blackboard and every step
untouched. -/
theorem execLoop_stalls (invoke : Invoke) (env : EnvMap) (fuel : Nat)
    (pending done : List StepRec) (cids : List String) (sr : StepResults) (bb : Dict)
    (hne : pending ≠ []) (hnr : ∀ s ∈ pending, ready cids s = false) :
    execLoop invoke env fuel pending done cids sr bb = ⟨false, bb, done ++ pending, .failed⟩ := by
  cases fuel with
  | zero =>
    cases pending with
    | nil => exact absurd rfl hne
    | cons s rest => rfl
  | succ fuel' =>
    cases pending with
    | nil => exact absurd rfl hne
    | cons s rest =>
      have hfe : (s :: rest).filter (ready cids) = [] := by
        rw [List.filter_eq_nil_iff]
        intro a ha
        simp [hnr a ha]
      simp [execLoop, hfe]

/-- C7: whenever unsettled steps remain but none of them has all of its
dependencies among the completed step ids, the engine marks the plan
failed and returns (False, blackboard) at once, dispatching nothing; in
particular a plan every step of which has a dependency fails immediately
with all statuses untouched. -/
theorem c7_unsatisfiable_graph_hard_stop :
    (∀ (invoke : Invoke) (env : EnvMap) (fuel : Nat) (pending done : List StepRec)
       (cids : List String) (sr : StepResults) (bb : Dict),
       pending ≠ [] → (∀ s ∈ pending, ready cids s = false) →
       execLoop invoke env fuel pending done cids sr bb =
         ⟨false, bb, done ++ pending, .failed⟩)
    ∧ (∀ (invoke : Invoke) (env : EnvMap) (steps : List StepRec) (bb : Dict),
       steps ≠ [] → (∀ s ∈ steps, s.depends_on ≠ []) →
       executePlan invoke env steps bb = ⟨false, bb, steps, .failed⟩) := by
  constructor
  · exact execLoop_stalls
  · intro invoke env steps bb hne hdep
    have hnr : ∀ s ∈ steps, ready [] s = false := by
      intro s hs
      cases hd : s.depends_on with
      | nil => exact absurd hd (hdep s hs)
      | cons d ds => simp [ready, hd]
    have h := execLoop_stalls invoke env steps.length steps [] [] [] bb hne hnr
    simpa [executePlan] using h

/-- Witness for C7: the two-step cyclic plan fails immediately with both
steps still pending and the blackboard unchanged. -/
theorem c7_witness : executePlan c7Invoke [] c7Steps [] = ⟨false, [], c7Steps, .failed⟩ :=
  c7_unsatisfiable_graph_hard_stop.2 c7Invoke [] c7Steps [] (by decide) (by decide)

/-- Every step of a wave that settles successfully is completed. -/
theorem awaitWave_ok_completed (invoke : Invoke) :
    ∀ (prepared : List PreparedCall) (cids : List String) (sr : StepResults) (bb : Dict)
      (steps : List StepRec) (c : List String) (s : StepResults) (b : Dict),
      awaitWave invoke prepared cids sr bb = .ok steps c s b →
      steps.all (fun st => st.status == .completed) = true := by
  intro prepared
  induction prepared with
  | nil =>
    intro cids sr bb steps c s b h
    simp only [awaitWave] at h
    injection h with h1 _ _ _
    rw [← h1]
    rfl
  | cons pc rest ih =>
    intro cids sr bb steps c s b h
    simp only [awaitWave] at h
    split at h
    · split at h
      next steps0 c0 s0 b0 heq =>
        injection h with h1 _ _ _
        rw [← h1]
        simp only [List.all_cons, Bool.and_eq_true]
        exact ⟨by simp, ih _ _ _ steps0 c0 s0 b0 heq⟩
      next steps0 b0 heq => cases h
    · cases h

/-- Counterexample for C2 as stated: an acyclic two-step plan (both steps
independent) whose first dispatched call fails leaves the second step with
status in_progress and no result when `execute_plan` returns. -/
theorem c2_counterexample :
    (c2Steps.map StepRec.depends_on = [[], []]) ∧
    (executePlan c2Invoke [] c2Steps []).success = false ∧
    ((executePlan c2Invoke [] c2Steps []).steps.map (fun s => (s.status, s.result.isSome))) =
      [(.failed, true), (.in_progress, false)] := by
  refine ⟨by decide, by decide, by decide⟩

/-- When the loop returns success, every returned step is completed
(provided every already-settled step handed in was completed, as holds at
the top-level entry where that list is empty). -/
theorem execLoop_success_all_completed (invoke : Invoke) (env : EnvMap) :
    ∀ (fuel : Nat) (pending done : List StepRec) (cids : List String)
      (sr : StepResults) (bb : Dict),
      (∀ s ∈ done, s.status = .completed) →
      (execLoop invoke env fuel pending done cids sr bb).success = true →
      ∀ s ∈ (execLoop invoke env fuel pending done cids sr bb).steps,
        s.status = .completed := by
  intro fuel
  induction fuel with
  | zero =>
    intro pending done cids sr bb hdone hsuc
    cases pending with
    | nil =>
      intro s hs
      exact hdone s hs
    | cons a l => simp [execLoop] at hsuc
  | succ fuel' ih =>
    intro pending done cids sr bb hdone hsuc
    cases pending with
    | nil =>
      intro s hs
      exact hdone s hs
    | cons a l =>
      simp only [execLoop] at hsuc ⊢
      cases hfe : (a :: l).filter (ready cids) with
      | nil => rw [hfe] at hsuc; simp at hsuc
      | cons e es =>
        rw [hfe] at hsuc
        dsimp only at hsuc ⊢
        cases hpw : prepareWave bb sr env (e :: es) with
        | fail steps =>
          try rw [hpw] at hsuc
          simp at hsuc
        | ok prepared =>
          try rw [hpw] at hsuc
          dsimp only at hsuc ⊢
          cases haw : awaitWave invoke prepared cids sr bb with
          | fail steps bb' =>
            try rw [haw] at hsuc
            simp at hsuc
          | ok steps cids' sr' bb' =>
            try rw [haw] at hsuc
            dsimp only at hsuc ⊢
            apply ih
            · intro s hs
              rcases List.mem_append.mp hs with hd | hw
              · exact hdone s hd
              · have hall := awaitWave_ok_completed invoke prepared cids sr bb
                  steps cids' sr' bb' haw
                have hbeq := List.all_eq_true.mp hall s hw
                simpa using hbeq
            · exact hsuc

/-- C2 (amended): `execute_plan` always terminates; when it returns
success every step's final status is completed. When it returns failure,
steps dispatched in the failing wave after the failure point remain
in_progress and never-dispatched steps remain pending, so not every step
settles (see the counterexample). -/
theorem c2_amended_success_statuses (invoke : Invoke) (env : EnvMap)
    (steps : List StepRec) (bb : Dict)
    (h : (executePlan invoke env steps bb).success = true) :
    ∀ s ∈ (executePlan invoke env steps bb).steps, s.status = .completed :=
  execLoop_success_all_completed invoke env steps.length steps [] [] [] bb
    (fun s hs => absurd hs (List.not_mem_nil s)) h

/-- Witness for the amended C2: a concrete successful one-step plan whose
only step ends completed. -/
theorem c2_amended_witness :
    ((executePlan c2OkInvoke [] c2OkSteps []).steps.all
      (fun s => s.status == .completed)) = true := by
  have hall := c2_amended_success_statuses c2OkInvoke [] c2OkSteps [] (by decide)
  rw [List.all_eq_true]
  intro s hs
  simpa using hall s hs

/-- Counterexample for C3 as stated: both steps of the wave are
dispatched, the first fails, and `execute_plan` returns with the second
still in_progress and no recorded result — the engine does not await the
rest of the wave. -/
theorem c3_counterexample :
    (executePlan c3Invoke [] c3Steps []).success = false ∧
    ((executePlan c3Invoke [] c3Steps []).steps.map (fun s => (s.status, s.result.isSome))) =
      [(.failed, true), (.in_progress, false)] :=
  ⟨by decide, by decide⟩

/-- C3 (amended): the await loop settles wave members in wave order and
stops at the first failure: on an aborted wave the returned steps are a
prefix of completed steps with recorded results, then the failed step with
its recorded result, then only unsettled in_progress members with no
result; no later wave is started. -/
theorem c3_amended_wave_abort (invoke : Invoke) :
    ∀ (prepared : List PreparedCall) (cids : List String) (sr : StepResults) (bb : Dict)
      (steps : List StepRec) (bb' : Dict),
      (∀ pc ∈ prepared, pc.step.status = .in_progress ∧ pc.step.result = none) →
      awaitWave invoke prepared cids sr bb = .fail steps bb' →
      waveAbortShape steps = true := by
  intro prepared
  induction prepared with
  | nil =>
    intro cids sr bb steps bb' hpre h
    simp only [awaitWave] at h
    cases h
  | cons pc rest ih =>
    intro cids sr bb steps bb' hpre h
    simp only [awaitWave] at h
    split at h
    · split at h
      next steps0 c0 s0 b0 heq => cases h
      next steps0 b0 heq =>
        injection h with h1 h2
        rw [← h1]
        have hrest : ∀ pc' ∈ rest, pc'.step.status = .in_progress ∧ pc'.step.result = none :=
          fun pc' hm => hpre pc' (List.mem_cons_of_mem pc hm)
        simp only [waveAbortShape]
        have htail := ih _ _ _ steps0 b0 hrest heq
        simp [htail]
    · injection h with h1 h2
      rw [← h1]
      simp only [waveAbortShape]
      have hrest : (rest.map PreparedCall.step).all
          (fun t => t.status == .in_progress && t.result.isNone) = true := by
        rw [List.all_eq_true]
        intro t ht
        rcases List.mem_map.mp ht with ⟨pc', hm, hp⟩
        have := hpre pc' (List.mem_cons_of_mem pc hm)
        rw [← hp]
        simp [this.1, this.2]
      simp [hrest]

/-- Witness for the amended C3: awaiting the concrete dispatched wave
under a failing tool oracle yields the abort shape. -/
theorem c3_amended_witness : waveAbortShape c3FailSteps = true :=
  c3_amended_wave_abort c3Invoke c3Prepared [] [] [] c3FailSteps []
    (by decide) (by decide)

theorem data_asString (l : List Char) : (List.asString l).data = l := rfl

theorem takeWhile_append_stops {p : Char → Bool} :
    ∀ (l1 : List Char) (c0 : Char) (l2 : List Char),
      (∀ c ∈ l1, p c = true) → p c0 = false →
      (l1 ++ c0 :: l2).takeWhile p = l1 := by
  intro l1
  induction l1 with
  | nil =>
    intro c0 l2 _ h0
    simp [List.takeWhile_cons, h0]
  | cons c cs ih =>
    intro c0 l2 h1 h0
    have hc : p c = true := h1 c (List.mem_cons_self c cs)
    rw [List.cons_append, List.takeWhile_cons, hc]
    simp only [if_true]
    rw [ih c0 l2 (fun x hx => h1 x (List.mem_cons_of_mem c hx)) h0]

theorem dropWhile_append_stops {p : Char → Bool} :
    ∀ (l1 : List Char) (c0 : Char) (l2 : List Char),
      (∀ c ∈ l1, p c = true) → p c0 = false →
      (l1 ++ c0 :: l2).dropWhile p = c0 :: l2 := by
  intro l1
  induction l1 with
  | nil =>
    intro c0 l2 _ h0
    simp [List.dropWhile_cons, h0]
  | cons c cs ih =>
    intro c0 l2 h1 h0
    have hc : p c = true := h1 c (List.mem_cons_self c cs)
    rw [List.cons_append, List.dropWhile_cons, hc]
    simp only [if_true]
    exact ih c0 l2 (fun x hx => h1 x (List.mem_cons_of_mem c hx)) h0

/-- The numbered-token test on an explicit well-shaped character list. -/
theorem isStepNOutput_cons (rest : List Char) :
    isStepNOutput (List.asString ('s' :: 't' :: 'e' :: 'p' :: rest)) =
      (!(rest.takeWhile isDigitCh).isEmpty &&
        rest.dropWhile isDigitCh == "_output".toList) := rfl

/-- The step-id extraction on an explicit character list. -/
theorem stepIdOf_asString (l : List Char) :
    stepIdOf (List.asString l) = (l.takeWhile (fun c => c != '_')).asString := rfl

/-- A decimal digit is not an underscore. -/
theorem digit_ne_underscore (c : Char) (h : isDigitCh c = true) : c ≠ '_' := by
  intro he
  rw [he] at h
  exact absurd h (by decide)

/-- Counterexample for C8 as stated: with `depends_on = [""]` and a
recorded result under the empty-string step id, the reverse scan selects
the empty id, but the code's truthiness test (`if prev_step_id:`) treats
it as no selection and leaves the token unchanged, while the claim
prescribes a rewrite (which would change the string, as the second
conjunct shows). -/
theorem c8_counterexample :
    applyToken (litPh "prev_step_output") "prev_step_output" [""]
      [("", [("rows", Value.int 1)])] = litPh "prev_step_output" ∧
    [""].reverse.find?
      (fun x => (alookup [("", [("rows", Value.int 1)])] x).isSome) = some "" ∧
    replaceStr (litPh "prev_step_output") (litPh "prev_step_output")
      (litPh ("" ++ ".rows")) ≠ litPh "prev_step_output" := by
  refine ⟨by decide, by decide, by decide⟩

/-- C8 (amended): the string branch of preprocessing folds the per-token
rewrite over the placeholder bodies of the original string. A generic
token selects the last entry of `depends_on`, scanned in reverse, that has
a recorded result, and — provided the selected id is not the empty string,
which Python truthiness silently drops — rewrites every occurrence of the
braced token to the braced `step_id.field` reference, with the field
chosen as `rows`, then `data_rows`, then `output`, then the first key of
the output mapping (an empty mapping leaves the token unchanged); a
numbered `stepN_output` token selects that specific step id (the prefix
before the underscore); when no dependency qualifies or the selected step
has no recorded result, the token is left unchanged. -/
theorem c8_amended_preprocess_tokens :
    (∀ (v : String) (deps : List String) (sr : StepResults),
       preprocessString v deps sr =
         (findPlaceholders v.toList).foldl (fun acc ph => applyToken acc ph deps sr) v)
    ∧ (∀ (v ph : String) (deps : List String) (sr : StepResults) (d : String) (out : Dict),
       genericTokens.contains ph = true →
       deps.reverse.find? (fun x => (alookup sr x).isSome) = some d →
       d ≠ "" → alookup sr d = some out →
       applyToken v ph deps sr = rewriteToken v ph d out)
    ∧ (∀ (v ph : String) (deps : List String) (sr : StepResults),
       genericTokens.contains ph = true →
       deps.reverse.find? (fun x => (alookup sr x).isSome) = none →
       applyToken v ph deps sr = v)
    ∧ (∀ (ds : List Char), ds ≠ [] → ds.all isDigitCh = true →
       isStepNOutput ("step" ++ ds.asString ++ "_output") = true
       ∧ stepIdOf ("step" ++ ds.asString ++ "_output") = "step" ++ ds.asString
       ∧ genericTokens.contains ("step" ++ ds.asString ++ "_output") = false)
    ∧ (∀ (v ph : String) (deps : List String) (sr : StepResults) (out : Dict),
       genericTokens.contains ph = false → isStepNOutput ph = true →
       alookup sr (stepIdOf ph) = some out →
       applyToken v ph deps sr = rewriteToken v ph (stepIdOf ph) out)
    ∧ (∀ (v ph : String) (deps : List String) (sr : StepResults),
       genericTokens.contains ph = false → isStepNOutput ph = true →
       alookup sr (stepIdOf ph) = none →
       applyToken v ph deps sr = v)
    ∧ (∀ (v ph sid : String) (out : Dict),
       ((alookup out "rows").isSome = true →
          rewriteToken v ph sid out = replaceStr v (litPh ph) (litPh (sid ++ ".rows")))
       ∧ ((alookup out "rows").isSome = false → (alookup out "data_rows").isSome = true →
          rewriteToken v ph sid out = replaceStr v (litPh ph) (litPh (sid ++ ".data_rows")))
       ∧ ((alookup out "rows").isSome = false → (alookup out "data_rows").isSome = false →
          (alookup out "output").isSome = true →
          rewriteToken v ph sid out = replaceStr v (litPh ph) (litPh (sid ++ ".output")))
       ∧ (∀ (k0 : String) (v0 : Value) (outRest : List (String × Value)),
          (alookup out "rows").isSome = false → (alookup out "data_rows").isSome = false →
          (alookup out "output").isSome = false → out = (k0, v0) :: outRest →
          rewriteToken v ph sid out = replaceStr v (litPh ph) (litPh (sid ++ "." ++ k0)))
       ∧ ((alookup out "rows").isSome = false → (alookup out "data_rows").isSome = false →
          (alookup out "output").isSome = false → out = [] →
          rewriteToken v ph sid out = v)) := by
  refine ⟨fun _ _ _ => rfl, ?_, ?_, ?_, ?_, ?_, ?_⟩
  · intro v ph deps sr d out hgen hfind hd hout
    have hgen' : ph ∈ genericTokens := List.elem_iff.mp hgen
    simp [applyToken, hgen', hfind, hd, hout]
  · intro v ph deps sr hgen hfind
    have hgen' : ph ∈ genericTokens := List.elem_iff.mp hgen
    simp [applyToken, hgen', hfind]
  · intro ds hne hdig
    have hdig' : ∀ c ∈ ds, isDigitCh c = true := List.all_eq_true.mp hdig
    have hdata : ("step" ++ ds.asString ++ "_output").data =
        's' :: 't' :: 'e' :: 'p' :: (ds ++ '_' :: "output".data) := by
      show ("step".data ++ (List.asString ds).data) ++ "_output".data = _
      rw [data_asString]
      rfl
    have hstr : ("step" ++ ds.asString ++ "_output") =
        List.asString ('s' :: 't' :: 'e' :: 'p' :: (ds ++ '_' :: "output".data)) := by
      apply String.ext
      rw [hdata, data_asString]
    have hu : isDigitCh '_' = false := by decide
    refine ⟨?_, ?_, ?_⟩
    · rw [hstr, isStepNOutput_cons,
        takeWhile_append_stops ds '_' "output".data hdig' hu,
        dropWhile_append_stops ds '_' "output".data hdig' hu]
      cases ds with
      | nil => exact absurd rfl hne
      | cons c cs => rfl
    · have hnu : ∀ c ∈ "step".data ++ ds, (c != '_') = true := by
        intro c hc
        rcases List.mem_append.mp hc with hstep | hds
        · have : c = 's' ∨ c = 't' ∨ c = 'e' ∨ c = 'p' := by
            simpa using hstep
          rcases this with h | h | h | h <;> rw [h] <;> decide
        · simpa using digit_ne_underscore c (hdig' c hds)
      have hu' : ('_' != '_') = false := by decide
      have hre : ('s' :: 't' :: 'e' :: 'p' :: (ds ++ '_' :: "output".data)) =
          ("step".data ++ ds) ++ '_' :: "output".data := by
        rw [List.append_assoc]
        rfl
      rw [hstr, stepIdOf_asString, hre,
        takeWhile_append_stops ("step".data ++ ds) '_' "output".data hnu hu']
      rfl
    · rw [Bool.eq_false_iff]
      intro hcontains
      have hmem := List.elem_iff.mp hcontains
      simp only [genericTokens, List.mem_cons, List.not_mem_nil, or_false] at hmem
      rcases hmem with h | h | h
      · have hd := congrArg String.data h
        rw [hdata] at hd
        exact absurd (List.head_eq_of_cons_eq hd) (by decide)
      · have hd := congrArg String.data h
        rw [hdata] at hd
        have htail := List.tail_eq_of_cons_eq (List.tail_eq_of_cons_eq
          (List.tail_eq_of_cons_eq (List.tail_eq_of_cons_eq hd)))
        cases hds : ds with
        | nil => exact absurd hds hne
        | cons c cs =>
          rw [hds] at htail
          have hc := List.head_eq_of_cons_eq htail
          have := digit_ne_underscore c (hdig' c (by rw [hds]; exact List.mem_cons_self c cs))
          exact absurd hc this
      · have hd := congrArg String.data h
        rw [hdata] at hd
        exact absurd (List.head_eq_of_cons_eq hd) (by decide)
  · intro v ph deps sr out hgen hnum hout
    have hgen' : ph ∉ genericTokens := by simpa using hgen
    simp [applyToken, hgen', hnum, hout]
  · intro v ph deps sr hgen hnum hout
    have hgen' : ph ∉ genericTokens := by simpa using hgen
    simp [applyToken, hgen', hnum, hout]
  · intro v ph sid out
    refine ⟨?_, ?_, ?_, ?_, ?_⟩
    · intro h1
      simp [rewriteToken, h1]
    · intro h1 h2
      simp [rewriteToken, h1, h2]
    · intro h1 h2 h3
      simp [rewriteToken, h1, h2, h3]
    · intro k0 v0 outRest h1 h2 h3 h4
      subst h4
      simp [rewriteToken, h1, h2, h3]
    · intro h1 h2 h3 h4
      subst h4
      simp [rewriteToken, h1, h2, h3]

/-- Witness for the amended C8: a generic token inside surrounding text is
rewritten to the braced reference of the selected dependency's `data_rows`
field (the `rows` field being absent). -/
theorem c8_amended_witness :
    applyToken "x \x7bprev_step_output\x7d" "prev_step_output" ["step1", "step2"]
      [("step1", [("data_rows", Value.int 1)])] =
      replaceStr "x \x7bprev_step_output\x7d" (litPh "prev_step_output")
        (litPh ("step1" ++ ".data_rows")) := by
  rw [c8_amended_preprocess_tokens.2.1 "x \x7bprev_step_output\x7d" "prev_step_output"
    ["step1", "step2"] [("step1", [("data_rows", Value.int 1)])] "step1"
    [("data_rows", Value.int 1)] (by decide) (by decide) (by decide) (by decide)]
  exact (c8_amended_preprocess_tokens.2.2.2.2.2.2 "x \x7bprev_step_output\x7d"
    "prev_step_output" "step1" [("data_rows", Value.int 1)]).2.1 (by decide) (by decide)

end TGSAgent
